import Mathlib

/-!
Shallow embedding of `src/main.py` (statistical analysis of an ancient-Greek
corpus): streaming token accumulation (`parse_xmls`), frequency/Zipf ranking,
the co-occurrence graph (`create_word_graph`, a model of the `networkx.Graph`
usage), weighted-degree centrality, the core-vocabulary coverage walk, the
report section order of `main`, and the Wiktionary translation lookup
(`translate_wiki` / `retrieve_definitions`).

Conventions: Python dicts (insertion-ordered) are association lists; Python's
`sorted` (a stable sort) is `List.insertionSort` with the corresponding
descending-key relation — a stable sort's output is uniquely determined by the
input, the key, and stability, so this is extensionally the same function;
`requests` I/O is modelled by quantifying over the observable HTTP outcome.
-/

/-- An element of `text_words`: the pair `(entry, POS)` read from a `lemma`
element (`lemma_elem.get("POS")` may be absent, hence `Option`). -/
abbrev Token := String × Option String

/-- An entry of the `found_words` dict: key `entry` mapped to the list
`[POS, count]` (modelled as the nested pair `(entry, (POS, count))`). -/
abbrev WordRecord := String × Option String × Nat

/-- Dict lookup `found_words[entry]` on the association-list model:
first record whose key matches. -/
def lookupRec : List WordRecord → String → Option (Option String × Nat)
  | [], _ => none
  | r :: rest, e => if r.1 = e then some r.2 else lookupRec rest e

/-- The Python membership test `entry in found_words`. -/
def containsRec (l : List WordRecord) (e : String) : Bool :=
  (lookupRec l e).isSome

/-- The update `found_words[entry][1] += 1`: bump the count of the (unique)
record with the given key, leaving every other record unchanged. -/
def incRec : List WordRecord → String → List WordRecord
  | [], _ => []
  | r :: rest, e => if r.1 = e then (r.1, r.2.1, r.2.2 + 1) :: rest else r :: incRec rest e

/-- Total of the `occurrenceCount` fields over the record table. -/
def sumCounts : List WordRecord → Nat
  | [] => 0
  | r :: rest => r.2.2 + sumCounts rest

/-- One iteration of the ingestion loop body of `parse_xmls` for a `word`
element whose `lemma` child has a non-`None` `entry`: update `found_words`
(count bump if seen, fresh `[POS, 1]` record otherwise) and append
`(entry, POS)` to `text_words`. -/
def processToken (st : List Token × List WordRecord) (t : Token) :
    List Token × List WordRecord :=
  let found := if containsRec st.2 t.1 then incRec st.2 t.1 else st.2 ++ [(t.1, t.2, 1)]
  (st.1 ++ [t], found)

/-- `parse_xmls`, abstracted over the token stream the XML reader emits
(the `(entry, POS)` pairs of the `word` elements that carry a lemma entry,
in document order): returns `(text_words, found_words)`. -/
def parse_xmls (tokens : List Token) : List Token × List WordRecord :=
  tokens.foldl processToken ([], [])

/-- Model of the `networkx.Graph` used by `create_word_graph`: the node list
(in insertion order, as iterated by `G.degree`) and the undirected weighted
edge list, at most one entry per unordered node pair. -/
structure Graph where
  nodes : List Token
  edges : List (Token × Token × Nat)
deriving DecidableEq

/-- A stored edge with endpoints `a, b` is the undirected edge between
`u` and `v`. -/
def sameEdge (u v a b : Token) : Prop := (a = u ∧ b = v) ∨ (a = v ∧ b = u)

instance (u v a b : Token) : Decidable (sameEdge u v a b) :=
  inferInstanceAs (Decidable (_ ∨ _))

/-- `G.has_edge(u, v)` on the edge-list model. -/
def hasEdgeList (es : List (Token × Token × Nat)) (u v : Token) : Bool :=
  es.any fun e => decide (sameEdge u v e.1 e.2.1)

/-- `G[u][v]["weight"] += 1`: bump the weight of the first (in fact only)
stored edge between `u` and `v`. -/
def incWeight : List (Token × Token × Nat) → Token → Token → List (Token × Token × Nat)
  | [], _, _ => []
  | e :: rest, u, v =>
      if sameEdge u v e.1 e.2.1 then (e.1, e.2.1, e.2.2 + 1) :: rest
      else e :: incWeight rest u v

/-- Total weight stored between `u` and `v` (the weight of the unique stored
edge, or `0` when there is none). -/
def edgeWeightList : List (Token × Token × Nat) → Token → Token → Nat
  | [], _, _ => 0
  | e :: rest, u, v =>
      (if sameEdge u v e.1 e.2.1 then e.2.2 else 0) + edgeWeightList rest u v

/-- Weight of the undirected edge of `G` between `u` and `v` (`0` if absent). -/
def Graph.edgeWeight (G : Graph) (u v : Token) : Nat :=
  edgeWeightList G.edges u v

/-- `G.has_edge(u, v)`. -/
def Graph.hasEdge (G : Graph) (u v : Token) : Bool :=
  hasEdgeList G.edges u v

/-- The body of the adjacency scan of `create_word_graph` for the consecutive
token pair `(word1, word2) = (text_words[i], text_words[i+1])`:
if both are graph nodes, increment the existing edge or add a weight-1 edge;
otherwise do nothing. -/
def stepEdge (G : Graph) (t1 t2 : Token) : Graph :=
  if t1 ∈ G.nodes ∧ t2 ∈ G.nodes then
    if G.hasEdge t1 t2 then { G with edges := incWeight G.edges t1 t2 }
    else { G with edges := G.edges ++ [(t1, t2, 1)] }
  else G

/-- The loop `for i in range(len(text_words) - 1)` of `create_word_graph`,
as a scan over the token list. -/
def addPairs (G : Graph) : List Token → Graph
  | t1 :: t2 :: rest => addPairs (stepEdge G t1 t2) (t2 :: rest)
  | _ => G

/-- `create_word_graph(sorted_words, number_of_words, text_words)`: nodes are
the `(word, POS)` pairs of the first `number_of_words` entries of
`sorted_words`; edges come from the adjacency scan over `text_words`. -/
def create_word_graph (sorted_words : List WordRecord) (number_of_words : Nat)
    (text_words : List Token) : Graph :=
  let first_words := sorted_words.take number_of_words
  addPairs { nodes := first_words.map fun r => (r.1, r.2.1), edges := [] } text_words

/-- The descending-count comparison used by
`sorted(found_words.items(), key=lambda kv: kv[1][1], reverse=True)`. -/
def countGe (a b : WordRecord) : Prop := b.2.2 ≤ a.2.2

instance : DecidableRel countGe := fun a b => Nat.decLe b.2.2 a.2.2

instance : IsTotal WordRecord countGe := ⟨fun a b => Nat.le_total b.2.2 a.2.2⟩

instance : IsTrans WordRecord countGe :=
  ⟨fun _ _ _ h1 h2 => Nat.le_trans h2 h1⟩

/-- `sorted_by_count`: Python's stable descending sort of the dict items. -/
def sorted_by_count (found_words : List WordRecord) : List WordRecord :=
  List.insertionSort countGe found_words

/-- An element of `words_ranking`: `(word, count, rank, count * rank, POS)`. -/
abbrev RankedEntry := String × Nat × Nat × Nat × Option String

/-- The comprehension body of `words_ranking` with `enumerate(..., start=rank)`. -/
def words_ranking_from (rank : Nat) : List WordRecord → List RankedEntry
  | [] => []
  | r :: rest => (r.1, r.2.2, rank, r.2.2 * rank, r.2.1) :: words_ranking_from (rank + 1) rest

/-- `words_ranking`: each sorted record annotated with its 1-based rank and
the Zipf product `count * rank`. -/
def words_ranking (sorted_words : List WordRecord) : List RankedEntry :=
  words_ranking_from 1 sorted_words

/-- `G.degree(weight="weight")` for one node: the sum of incident edge
weights, a self-loop counting twice (networkx degree semantics). -/
def Graph.weightedDegree (G : Graph) (v : Token) : Nat :=
  G.edges.foldl
    (fun s e => s + (if e.1 = v then e.2.2 else 0) + (if e.2.1 = v then e.2.2 else 0)) 0

/-- The list `G.degree(weight="weight")`: nodes in insertion order, each with
its weighted degree. -/
def degreeList (G : Graph) : List (Token × Nat) :=
  G.nodes.map fun v => (v, G.weightedDegree v)

/-- The descending-degree comparison of
`sorted(G.degree(weight="weight"), key=lambda x: x[1], reverse=True)`. -/
def degGe (a b : Token × Nat) : Prop := b.2 ≤ a.2

instance : DecidableRel degGe := fun a b => Nat.decLe b.2 a.2

/-- `sorted(G.degree(weight="weight"), key=lambda x: x[1], reverse=True)`. -/
def words_by_connections (G : Graph) : List (Token × Nat) :=
  List.insertionSort degGe (degreeList G)

/-- `found_words[word][1]` as used in the coverage walk (every walked word is
a key of the table; the `0` default is never hit there). -/
def cntOf (found_words : List WordRecord) (w : String) : Nat :=
  match lookupRec found_words w with
  | some r => r.2
  | none => 0

/-- The coverage loop of `main`: walk the degree-sorted list, accumulate
`found_words[word][1]`, and stop at the first prefix whose cumulative sum
reaches the barrier `total * 0.9` — embedded exactly as the rational
comparison `9 * total ≤ 10 * cum`. Returns `some (i, cumulative_sum)` at the
`break`, and `none` when the walk ends without reaching the barrier
(then nothing is reported). -/
def coverage_loop (found_words : List WordRecord) (total : Nat) :
    List (Token × Nat) → Nat → Nat → Option (Nat × Nat)
  | [], _, _ => none
  | e :: rest, i, cum =>
      let cum' := cum + cntOf found_words e.1.1
      if 9 * total ≤ 10 * cum' then some (i + 1, cum')
      else coverage_loop found_words total rest (i + 1) cum'

/-- `all_words_by_connections` of `main`: the nodes of the full-vocabulary
graph `ALL = create_word_graph(sorted_by_count, len(sorted_by_count),
text_words)` sorted by descending weighted degree. -/
def walk_order (toks : List Token) : List (Token × Nat) :=
  words_by_connections
    (create_word_graph (sorted_by_count (parse_xmls toks).2)
      (sorted_by_count (parse_xmls toks).2).length (parse_xmls toks).1)

/-- The coverage computation of `main`: the `(i, cumulative_sum)` printed at
the `break`, or `none` when the loop exhausts the walk without a `break`. -/
def coverage_result (toks : List Token) : Option (Nat × Nat) :=
  coverage_loop (parse_xmls toks).2 (parse_xmls toks).1.length (walk_order toks) 0 0

/-- Cumulative occurrence count of the first `j` entries of the coverage walk
order. -/
def cumCount (found_words : List WordRecord) (l : List (Token × Nat)) (j : Nat) : Nat :=
  ((l.take j).map fun e => cntOf found_words e.1.1).sum

/-- The report sections `main` writes to the output sink, one tag per
section, in emission order. -/
inductive ReportSection where
  | tokenCount
  | zipfRanking
  | centralityRanking
  | coverage
  | nounsRanking
deriving DecidableEq

/-- The order in which `main` emits its report sections to `write_output`:
token count, top-50 Zipf ranking, top-200 centrality ranking, the coverage
statement (written only when the coverage loop hits its `break`), and the
top-50 nouns listing. -/
def report_sections (toks : List Token) : List ReportSection :=
  [ReportSection.tokenCount, ReportSection.zipfRanking, ReportSection.centralityRanking]
    ++ (match coverage_result toks with
        | some _ => [ReportSection.coverage]
        | none => [])
    ++ [ReportSection.nounsRanking]

/-- The claim's adjacency count: the number of positions `i` at which the
consecutive pair `(text_words[i], text_words[i+1])`, in either order, is the
node pair `{u, v}` with both members in the node set. -/
def adjPairCount (nodes : List Token) (text_words : List Token) (u v : Token) : Nat :=
  (text_words.zip text_words.tail).countP
    fun ab => decide (sameEdge u v ab.1 ab.2 ∧ u ∈ nodes ∧ v ∈ nodes)

/-! ### Translation lookup (`translate_wiki` / `retrieve_definitions`) -/

/-- First index of a character in a list (`str.find` for a single-character
needle, given that the needle occurs). -/
def charIndex (c : Char) : List Char → Option Nat
  | [] => none
  | x :: xs => if x = c then some 0 else (charIndex c xs).map (· + 1)

theorem charIndex_lt_length {c : Char} :
    ∀ {l : List Char} {i : Nat}, charIndex c l = some i → i < l.length := by
  intro l
  induction l with
  | nil => intro i h; simp [charIndex] at h
  | cons x xs ih =>
    intro i h
    simp only [List.length_cons]
    by_cases hx : x = c
    · simp [charIndex, hx] at h
      omega
    · simp [charIndex, hx] at h
      obtain ⟨j, hj, rfl⟩ := h
      have := ih hj
      omega

/-- The tag-stripping `while` loop of `retrieve_definitions`: while both `<`
and `>` occur, remove `d[start : end+1]` when the first `<` precedes the
first `>`, else stop. -/
def stripTags (d : List Char) : List Char :=
  match h1 : charIndex '<' d, h2 : charIndex '>' d with
  | some start, some stop =>
      if hlt : start < stop then stripTags (d.take start ++ d.drop (stop + 1))
      else d
  | some _, none => d
  | none, _ => d
termination_by d.length
decreasing_by
  have hstop := charIndex_lt_length h2
  simp
  omega

/-- Python `str.strip()`: drop whitespace from both ends. -/
def stripEnds (d : List Char) : List Char :=
  ((d.dropWhile Char.isWhitespace).reverse.dropWhile Char.isWhitespace).reverse

/-- `retrieve_definitions`: strip markup tags from each definition string,
remove newlines, and strip surrounding whitespace. A definition string is
modelled as a character list. -/
def retrieve_definitions (word_definitions : List (List Char)) : List (List Char) :=
  word_definitions.map fun d => stripEnds ((stripTags d).filter fun ch => ch ≠ '\n')

/-- An exception raised (and not caught) inside `translate_wiki`. -/
inductive PyError where
  | requestFailure
  | keyError
deriving DecidableEq

/-- The observable body of a Wiktionary response, as accessed by
`data["other"][0]["definitions"]`: either that access path fails (missing
key, empty list, wrong shape — a `KeyError`/`IndexError`/`TypeError` in
Python), or it yields the list of raw definition strings. -/
inductive WikiResponse where
  | invalid
  | valid (word_definitions : List (List Char))
deriving DecidableEq

/-- The observable outcome of `requests.get` for one lookup: either the call
raises (connection error, timeout, ...), or it returns a response with a
status code and a body. -/
inductive HttpResult where
  | exn
  | resp (status : Nat) (body : WikiResponse)
deriving DecidableEq

/-- `translate_wiki`, abstracted over the HTTP outcome for the looked-up
word. `Except.ok` is a normal return (`some` definitions or `None`);
`Except.error` is an uncaught exception propagating out of the function: the
code guards only the status code — a raising `requests.get` and a body on
which `data["other"][0]["definitions"]` fails are not handled. -/
def translate_wiki (r : HttpResult) : Except PyError (Option (List (List Char))) :=
  match r with
  | HttpResult.exn => Except.error PyError.requestFailure
  | HttpResult.resp status body =>
      if status = 200 then
        match body with
        | WikiResponse.invalid => Except.error PyError.keyError
        | WikiResponse.valid word_definitions =>
            Except.ok (some (retrieve_definitions word_definitions))
      else Except.ok none

/-! ### Lemmas about the graph scan -/

theorem stepEdge_nodes (G : Graph) (t1 t2 : Token) : (stepEdge G t1 t2).nodes = G.nodes := by
  unfold stepEdge
  by_cases h : t1 ∈ G.nodes ∧ t2 ∈ G.nodes
  · by_cases h2 : G.hasEdge t1 t2 <;> simp [h, h2]
  · simp [h]

theorem addPairs_nodes : ∀ (l : List Token) (G : Graph), (addPairs G l).nodes = G.nodes := by
  intro l
  induction l with
  | nil => intro G; rfl
  | cons t1 rest ih =>
    intro G
    cases rest with
    | nil => rfl
    | cons t2 r2 =>
      show (addPairs (stepEdge G t1 t2) (t2 :: r2)).nodes = G.nodes
      rw [ih, stepEdge_nodes]

theorem sameEdge_of_both {u v t1 t2 a b : Token}
    (h1 : sameEdge t1 t2 a b) (h2 : sameEdge u v a b) : sameEdge u v t1 t2 := by
  unfold sameEdge at *
  rcases h1 with ⟨rfl, rfl⟩ | ⟨rfl, rfl⟩
  · exact h2
  · rcases h2 with ⟨h3, h4⟩ | ⟨h3, h4⟩
    · exact Or.inr ⟨h4, h3⟩
    · exact Or.inl ⟨h4, h3⟩

theorem sameEdge_mono {u v t1 t2 a b : Token}
    (hq : sameEdge u v t1 t2) (h1 : sameEdge t1 t2 a b) : sameEdge u v a b := by
  unfold sameEdge at *
  rcases h1 with ⟨rfl, rfl⟩ | ⟨rfl, rfl⟩
  · exact hq
  · rcases hq with ⟨h3, h4⟩ | ⟨h3, h4⟩
    · exact Or.inr ⟨h4, h3⟩
    · exact Or.inl ⟨h4, h3⟩

theorem edgeWeightList_append (es1 es2 : List (Token × Token × Nat)) (u v : Token) :
    edgeWeightList (es1 ++ es2) u v = edgeWeightList es1 u v + edgeWeightList es2 u v := by
  induction es1 with
  | nil => simp [edgeWeightList]
  | cons e rest ih => simp [edgeWeightList, ih, Nat.add_assoc]

theorem edgeWeightList_incWeight (es : List (Token × Token × Nat)) (t1 t2 u v : Token) :
    edgeWeightList (incWeight es t1 t2) u v =
      edgeWeightList es u v +
        (if hasEdgeList es t1 t2 = true ∧ sameEdge u v t1 t2 then 1 else 0) := by
  induction es with
  | nil => simp [incWeight, edgeWeightList, hasEdgeList]
  | cons e rest ih =>
    by_cases h1 : sameEdge t1 t2 e.1 e.2.1
    · by_cases h2 : sameEdge u v e.1 e.2.1
      · have hq : sameEdge u v t1 t2 := sameEdge_of_both h1 h2
        simp [incWeight, edgeWeightList, hasEdgeList, h1, h2, hq]
        omega
      · have hq : ¬ sameEdge u v t1 t2 := fun hq => h2 (sameEdge_mono hq h1)
        simp [incWeight, edgeWeightList, hasEdgeList, h1, h2, hq]
    · have hd : decide (sameEdge t1 t2 e.1 e.2.1) = false := by simp [h1]
      simp only [incWeight, if_neg h1, edgeWeightList, ih, hasEdgeList, List.any_cons, hd,
        Bool.false_or]
      exact (Nat.add_assoc _ _ _).symm

theorem edgeWeight_stepEdge (G : Graph) (t1 t2 u v : Token) :
    (stepEdge G t1 t2).edgeWeight u v =
      G.edgeWeight u v +
        (if sameEdge u v t1 t2 ∧ t1 ∈ G.nodes ∧ t2 ∈ G.nodes then 1 else 0) := by
  unfold stepEdge Graph.edgeWeight
  by_cases hmem : t1 ∈ G.nodes ∧ t2 ∈ G.nodes
  · by_cases hedge : G.hasEdge t1 t2
    · have he : hasEdgeList G.edges t1 t2 = true := hedge
      simp only [if_pos hmem, if_pos hedge]
      rw [edgeWeightList_incWeight]
      simp [he, hmem]
    · simp only [if_pos hmem, if_neg hedge]
      rw [edgeWeightList_append]
      simp [edgeWeightList, hmem]
  · simp [hmem]

theorem adj_cond_iff (nodes : List Token) (u v t1 t2 : Token) :
    (sameEdge u v t1 t2 ∧ t1 ∈ nodes ∧ t2 ∈ nodes) ↔
      (sameEdge u v t1 t2 ∧ u ∈ nodes ∧ v ∈ nodes) := by
  constructor
  · rintro ⟨hs, h1, h2⟩
    refine ⟨hs, ?_, ?_⟩ <;> rcases hs with ⟨rfl, rfl⟩ | ⟨rfl, rfl⟩ <;> assumption
  · rintro ⟨hs, h1, h2⟩
    refine ⟨hs, ?_, ?_⟩ <;> rcases hs with ⟨rfl, rfl⟩ | ⟨rfl, rfl⟩ <;> assumption

theorem addPairs_edgeWeight (u v : Token) :
    ∀ (l : List Token) (G : Graph),
      (addPairs G l).edgeWeight u v = G.edgeWeight u v + adjPairCount G.nodes l u v := by
  intro l
  induction l with
  | nil => intro G; simp [addPairs, adjPairCount]
  | cons t1 rest ih =>
    intro G
    cases rest with
    | nil => simp [addPairs, adjPairCount]
    | cons t2 r2 =>
      show (addPairs (stepEdge G t1 t2) (t2 :: r2)).edgeWeight u v = _
      rw [ih (stepEdge G t1 t2), stepEdge_nodes, edgeWeight_stepEdge]
      unfold adjPairCount
      rw [show (t1 :: t2 :: r2).zip (t1 :: t2 :: r2).tail =
            (t1, t2) :: ((t2 :: r2).zip (t2 :: r2).tail) from rfl]
      rw [List.countP_cons]
      by_cases hc : sameEdge u v t1 t2 ∧ u ∈ G.nodes ∧ v ∈ G.nodes
      · rw [if_pos ((adj_cond_iff G.nodes u v t1 t2).mpr hc)]
        simp only [decide_eq_true_eq]
        rw [if_pos hc]
        omega
      · rw [if_neg (fun h => hc ((adj_cond_iff G.nodes u v t1 t2).mp h))]
        simp only [decide_eq_true_eq]
        rw [if_neg hc]
        omega

/-- C3: for every sorted record list, cutoff, token sequence and pair of
distinct nodes, the edge weight between the two nodes in the graph built by
`create_word_graph` equals the number of positions `i` at which the
consecutive token pair `(text_words[i], text_words[i+1])`, taken in either
order, is that node pair with both members in the top-K node set; pairs with
either member outside the node set contribute nothing. -/
theorem create_word_graph_edgeWeight_count (sorted_words : List WordRecord)
    (number_of_words : Nat) (text_words : List Token) (u v : Token) (huv : u ≠ v) :
    (create_word_graph sorted_words number_of_words text_words).edgeWeight u v =
      adjPairCount (create_word_graph sorted_words number_of_words text_words).nodes
        text_words u v := by
  unfold create_word_graph
  rw [addPairs_nodes, addPairs_edgeWeight]
  simp [Graph.edgeWeight, edgeWeightList]

/-- Witness for C3 at a concrete corpus: sorted vocabulary
`a (count 2), b (count 2)`, `K = 2`, token sequence `a b a`; the undirected
edge `a – b` collects both adjacent pairs `(a,b)` and `(b,a)`, so its weight
is the adjacency count `2`. -/
theorem create_word_graph_edgeWeight_count_witness :
    (("a", some "n") : Token) ≠ ("b", some "v") ∧
      (create_word_graph [("a", some "n", 2), ("b", some "v", 2)] 2
            [("a", some "n"), ("b", some "v"), ("a", some "n")]).edgeWeight
          ("a", some "n") ("b", some "v") =
        adjPairCount
          (create_word_graph [("a", some "n", 2), ("b", some "v", 2)] 2
              [("a", some "n"), ("b", some "v"), ("a", some "n")]).nodes
          [("a", some "n"), ("b", some "v"), ("a", some "n")] ("a", some "n")
          ("b", some "v") :=
  ⟨by decide,
    create_word_graph_edgeWeight_count [("a", some "n", 2), ("b", some "v", 2)] 2
      [("a", some "n"), ("b", some "v"), ("a", some "n")] ("a", some "n")
      ("b", some "v") (by decide)⟩

/-! ### Edge-endpoint invariants of the scan -/

theorem incWeight_endpoints (p : Token → Token → Prop) :
    ∀ (es : List (Token × Token × Nat)) (t1 t2 : Token),
      (∀ e ∈ es, p e.1 e.2.1) → ∀ e ∈ incWeight es t1 t2, p e.1 e.2.1 := by
  intro es t1 t2
  induction es with
  | nil => intro _ e he; simp [incWeight] at he
  | cons e0 rest ih =>
    intro h e he
    by_cases h0 : sameEdge t1 t2 e0.1 e0.2.1
    · rw [incWeight, if_pos h0] at he
      rcases List.mem_cons.mp he with rfl | hmem
      · exact h e0 (List.mem_cons_self e0 rest)
      · exact h e (List.mem_cons_of_mem e0 hmem)
    · rw [incWeight, if_neg h0] at he
      rcases List.mem_cons.mp he with rfl | hmem
      · exact h _ (List.mem_cons_self _ _)
      · exact ih (fun e' he' => h e' (List.mem_cons_of_mem e0 he')) e hmem

theorem stepEdge_edges_pred (p : Token → Token → Prop) (G : Graph) (t1 t2 : Token)
    (hG : ∀ e ∈ G.edges, p e.1 e.2.1)
    (hnew : t1 ∈ G.nodes → t2 ∈ G.nodes → p t1 t2) :
    ∀ e ∈ (stepEdge G t1 t2).edges, p e.1 e.2.1 := by
  unfold stepEdge
  by_cases hmem : t1 ∈ G.nodes ∧ t2 ∈ G.nodes
  · by_cases hedge : G.hasEdge t1 t2
    · simp only [if_pos hmem, if_pos hedge]
      exact incWeight_endpoints p G.edges t1 t2 hG
    · simp only [if_pos hmem, if_neg hedge]
      intro e he
      rcases List.mem_append.mp he with hin | hunit
      · exact hG e hin
      · rcases List.mem_singleton.mp hunit with rfl
        exact hnew hmem.1 hmem.2
  · simp only [if_neg hmem]
    exact hG

theorem addPairs_edges_pred (p : Token → Token → Prop) (ns : List Token) :
    ∀ (l : List Token) (G : Graph), G.nodes = ns →
      (∀ e ∈ G.edges, p e.1 e.2.1) →
      l.Chain' (fun a b => a ∈ ns → b ∈ ns → p a b) →
      ∀ e ∈ (addPairs G l).edges, p e.1 e.2.1 := by
  intro l
  induction l with
  | nil => intro G _ hG _; exact hG
  | cons t1 rest ih =>
    intro G hns hG hch
    cases rest with
    | nil => exact hG
    | cons t2 r2 =>
      rcases List.chain'_cons.mp hch with ⟨hr, hch2⟩
      show ∀ e ∈ (addPairs (stepEdge G t1 t2) (t2 :: r2)).edges, p e.1 e.2.1
      refine ih (stepEdge G t1 t2) (by rw [stepEdge_nodes, hns]) ?_ hch2
      exact stepEdge_edges_pred p G t1 t2 hG
        (fun h1 h2 => hr (hns ▸ h1) (hns ▸ h2))

theorem edgeWeightList_zero (u v : Token) :
    ∀ es : List (Token × Token × Nat),
      (∀ e ∈ es, ¬ sameEdge u v e.1 e.2.1) → edgeWeightList es u v = 0 := by
  intro es
  induction es with
  | nil => intro _; rfl
  | cons e rest ih =>
    intro h
    rw [edgeWeightList, if_neg (h e (List.mem_cons_self e rest)),
      ih fun e' he' => h e' (List.mem_cons_of_mem e he')]

theorem stepEdge_eq_of_not_node (G : Graph) (t1 t2 : Token)
    (h : ¬ (t1 ∈ G.nodes ∧ t2 ∈ G.nodes)) : stepEdge G t1 t2 = G := by
  unfold stepEdge
  rw [if_neg h]

theorem addPairs_edges_eq (ns : List Token) :
    ∀ (l : List Token) (G : Graph), G.nodes = ns →
      l.Chain' (fun a b => ¬ (a ∈ ns ∧ b ∈ ns)) →
      (addPairs G l).edges = G.edges := by
  intro l
  induction l with
  | nil => intro G _ _; rfl
  | cons t1 rest ih =>
    intro G hns hch
    cases rest with
    | nil => rfl
    | cons t2 r2 =>
      rcases List.chain'_cons.mp hch with ⟨hr, hch2⟩
      show (addPairs (stepEdge G t1 t2) (t2 :: r2)).edges = G.edges
      rw [stepEdge_eq_of_not_node G t1 t2 (by rw [hns]; exact hr)]
      exact ih G hns hch2

/-- Concrete vocabulary for the self-loop counterexample: five distinct
lemmas, `a` the most frequent. -/
def exC1_sorted : List WordRecord :=
  [("a", some "n", 3), ("b", some "n", 1), ("c", some "n", 1),
    ("d", some "n", 1), ("e", some "n", 1)]

/-- Concrete token sequence with the top lemma repeated at consecutive
positions (counts match `exC1_sorted`). -/
def exC1_text : List Token :=
  [("a", some "n"), ("a", some "n"), ("a", some "n"), ("b", some "n"),
    ("c", some "n"), ("d", some "n"), ("e", some "n")]

/-- C1 counterexample: with `K = 1` over a vocabulary of 5 distinct lemmas,
a repeated word at consecutive positions DOES create and increment an edge —
a self-loop: the graph has exactly 1 node but 1 edge, the self-loop on `a`
with weight 2, refuting both the no-self-loop invariant and the
`1 node, 0 edges` scenario. -/
theorem create_word_graph_selfloop_example :
    (create_word_graph exC1_sorted 1 exC1_text).nodes.length = 1 ∧
    (create_word_graph exC1_sorted 1 exC1_text).edges.length = 1 ∧
    (create_word_graph exC1_sorted 1 exC1_text).edgeWeight ("a", some "n") ("a", some "n") = 2 ∧
    (create_word_graph exC1_sorted 1 exC1_text).hasEdge ("a", some "n") ("a", some "n") = true := by
  decide

/-- C1 amended: the graph builder creates no self-loop PROVIDED the token
sequence never repeats the same `(lemma, POS)` token at two consecutive
positions; under that proviso, for `K = 1` over a non-empty vocabulary the
graph has exactly 1 node and 0 edges. (Without the proviso a consecutive
repeat of a node token creates or increments a self-loop, see the
counterexample.) -/
theorem create_word_graph_no_selfloop_of_no_repeat (sorted_words : List WordRecord)
    (number_of_words : Nat) (text_words : List Token)
    (hnr : text_words.Chain' fun a b => a ≠ b) :
    (∀ v : Token,
        (create_word_graph sorted_words number_of_words text_words).edgeWeight v v = 0)
    ∧ (number_of_words = 1 → sorted_words ≠ [] →
        (create_word_graph sorted_words number_of_words text_words).nodes.length = 1
        ∧ (create_word_graph sorted_words number_of_words text_words).edges = []) := by
  constructor
  · intro v
    have hpred : ∀ e ∈ (create_word_graph sorted_words number_of_words text_words).edges,
        e.1 ≠ e.2.1 :=
      addPairs_edges_pred (fun a b => a ≠ b)
        ((sorted_words.take number_of_words).map fun r => (r.1, r.2.1)) text_words _ rfl
        (fun e he => absurd he (List.not_mem_nil e))
        (hnr.imp fun a b h => fun _ _ => h)
    apply edgeWeightList_zero
    intro e he hs
    rcases hs with ⟨h1, h2⟩ | ⟨h1, h2⟩ <;> exact hpred e he (h1.trans h2.symm)
  · intro hk hsw
    subst hk
    obtain ⟨r0, rest, rfl⟩ : ∃ r0 rest, sorted_words = r0 :: rest := by
      cases sorted_words with
      | nil => exact absurd rfl hsw
      | cons a l => exact ⟨a, l, rfl⟩
    have hns : ((r0 :: rest).take 1).map (fun r : WordRecord => (r.1, r.2.1)) =
        [(r0.1, r0.2.1)] := rfl
    constructor
    · show (addPairs
          { nodes := ((r0 :: rest).take 1).map fun r => (r.1, r.2.1), edges := [] }
          text_words).nodes.length = 1
      rw [addPairs_nodes, hns]
      rfl
    · show (addPairs
          { nodes := ((r0 :: rest).take 1).map fun r => (r.1, r.2.1), edges := [] }
          text_words).edges = []
      refine addPairs_edges_eq _ text_words _ rfl ?_
      refine hnr.imp fun a b hne => ?_
      rintro ⟨ha, hb⟩
      rw [hns] at ha hb
      exact hne ((List.mem_singleton.mp ha).trans (List.mem_singleton.mp hb).symm)

/-- Vocabulary for the C1 witness: five distinct lemmas. -/
def exC1w_sorted : List WordRecord :=
  [("a", some "n", 3), ("b", some "n", 1), ("c", some "n", 1),
    ("d", some "n", 1), ("e", some "n", 1)]

/-- Token sequence for the C1 witness: no two consecutive tokens are equal
(counts match `exC1w_sorted`). -/
def exC1w_text : List Token :=
  [("a", some "n"), ("b", some "n"), ("a", some "n"), ("c", some "n"),
    ("d", some "n"), ("e", some "n"), ("a", some "n")]

/-- Witness for the amended C1 at a concrete repeat-free corpus with `K = 1`
over a vocabulary of 5 distinct lemmas: no self-loops, 1 node, 0 edges. -/
theorem create_word_graph_no_selfloop_of_no_repeat_witness :
    (exC1w_text.Chain' fun a b => a ≠ b) ∧
    (∀ v : Token, (create_word_graph exC1w_sorted 1 exC1w_text).edgeWeight v v = 0) ∧
    (create_word_graph exC1w_sorted 1 exC1w_text).nodes.length = 1 ∧
    (create_word_graph exC1w_sorted 1 exC1w_text).edges = [] := by
  have hch : exC1w_text.Chain' fun a b => a ≠ b := by
    simp only [exC1w_text, List.chain'_cons]
    exact ⟨by decide, by decide, by decide, by decide, by decide, by decide,
      List.chain'_singleton _⟩
  exact ⟨hch,
    (create_word_graph_no_selfloop_of_no_repeat exC1w_sorted 1 exC1w_text hch).1,
    ((create_word_graph_no_selfloop_of_no_repeat exC1w_sorted 1 exC1w_text hch).2
      rfl (by decide)).1,
    ((create_word_graph_no_selfloop_of_no_repeat exC1w_sorted 1 exC1w_text hch).2
      rfl (by decide)).2⟩

/-! ### Lemmas about the ingestion fold -/

theorem sumCounts_append (l1 l2 : List WordRecord) :
    sumCounts (l1 ++ l2) = sumCounts l1 + sumCounts l2 := by
  induction l1 with
  | nil => simp [sumCounts]
  | cons r rest ih => simp [sumCounts, ih, Nat.add_assoc]

theorem sumCounts_incRec (l : List WordRecord) (e : String) (h : containsRec l e = true) :
    sumCounts (incRec l e) = sumCounts l + 1 := by
  induction l with
  | nil => simp [containsRec, lookupRec] at h
  | cons r rest ih =>
    by_cases hr : r.1 = e
    · rw [incRec, if_pos hr]
      simp [sumCounts]
      omega
    · rw [incRec, if_neg hr]
      have h2 : containsRec rest e = true := by
        simpa [containsRec, lookupRec, hr] using h
      simp [sumCounts, ih h2]
      omega

theorem processToken_sumCounts (st : List Token × List WordRecord) (t : Token) :
    sumCounts (processToken st t).2 = sumCounts st.2 + 1 := by
  unfold processToken
  by_cases hc : containsRec st.2 t.1
  · simp [hc, sumCounts_incRec st.2 t.1 hc]
  · simp [hc, sumCounts_append, sumCounts]

theorem foldl_processToken_sum_len :
    ∀ (l : List Token) (st : List Token × List WordRecord),
      sumCounts (l.foldl processToken st).2 = sumCounts st.2 + l.length ∧
      (l.foldl processToken st).1.length = st.1.length + l.length := by
  intro l
  induction l with
  | nil => intro st; simp
  | cons t rest ih =>
    intro st
    rw [List.foldl_cons]
    rcases ih (processToken st t) with ⟨h1, h2⟩
    constructor
    · rw [h1, processToken_sumCounts]
      simp
      omega
    · rw [h2]
      show (st.1 ++ [t]).length + rest.length = _
      simp
      omega

/-- C6: for every token stream and for every prefix of it (so the equality is
preserved after every single token is processed), the sum of the
`occurrenceCount` fields over all records of `found_words` equals the length
of the `text_words` buffer, which equals the number of tokens emitted so
far. -/
theorem parse_xmls_count_conservation (toks : List Token) (n : Nat) :
    sumCounts (parse_xmls (toks.take n)).2 = (parse_xmls (toks.take n)).1.length
    ∧ (parse_xmls (toks.take n)).1.length = (toks.take n).length := by
  unfold parse_xmls
  rcases foldl_processToken_sum_len (toks.take n) ([], []) with ⟨h1, h2⟩
  rw [h1, h2]
  exact ⟨rfl, by simp⟩

/-! ### Characterization of the record table (first tag wins) -/

theorem lookupRec_incRec_self (e : String) :
    ∀ l : List WordRecord,
      lookupRec (incRec l e) e = (lookupRec l e).map fun v => (v.1, v.2 + 1) := by
  intro l
  induction l with
  | nil => rfl
  | cons r rest ih =>
    by_cases hr : r.1 = e
    · rw [incRec, if_pos hr, lookupRec, if_pos hr, lookupRec, if_pos hr]
      rfl
    · rw [incRec, if_neg hr, lookupRec, if_neg hr, lookupRec, if_neg hr, ih]

theorem lookupRec_incRec_other (e w : String) (hne : e ≠ w) :
    ∀ l : List WordRecord, lookupRec (incRec l e) w = lookupRec l w := by
  intro l
  induction l with
  | nil => rfl
  | cons r rest ih =>
    by_cases hr : r.1 = e
    · have hw : ¬ ((r.1 : String) = w) := by rw [hr]; exact hne
      rw [incRec, if_pos hr, lookupRec, if_neg hw, lookupRec, if_neg hw]
    · rw [incRec, if_neg hr, lookupRec, lookupRec, ih]

theorem lookupRec_append (l1 l2 : List WordRecord) (w : String) :
    lookupRec (l1 ++ l2) w =
      match lookupRec l1 w with
      | some v => some v
      | none => lookupRec l2 w := by
  induction l1 with
  | nil => simp [lookupRec]
  | cons r rest ih =>
    by_cases hr : r.1 = w
    · rw [List.cons_append, lookupRec, if_pos hr, lookupRec, if_pos hr]
    · rw [List.cons_append, lookupRec, if_neg hr, lookupRec, if_neg hr, ih]

theorem lookupRec_processToken (st : List Token × List WordRecord) (t : Token) (w : String) :
    lookupRec (processToken st t).2 w =
      if t.1 = w then
        match lookupRec st.2 w with
        | some v => some (v.1, v.2 + 1)
        | none => some (t.2, 1)
      else lookupRec st.2 w := by
  show lookupRec (if containsRec st.2 t.1 then incRec st.2 t.1 else st.2 ++ [(t.1, t.2, 1)]) w
    = _
  by_cases hw : t.1 = w
  · subst hw
    by_cases hc : containsRec st.2 t.1
    · rw [if_pos hc, lookupRec_incRec_self]
      obtain ⟨v, hv⟩ := Option.isSome_iff_exists.mp hc
      rw [hv]
      simp
    · rw [if_neg hc, lookupRec_append]
      have hn : lookupRec st.2 t.1 = none := by
        rcases h : lookupRec st.2 t.1 with _ | v
        · rfl
        · exact absurd (by unfold containsRec; rw [h]; rfl) hc
      rw [hn]
      simp [lookupRec]
  · by_cases hc : containsRec st.2 t.1
    · rw [if_pos hc, lookupRec_incRec_other t.1 w hw, if_neg hw]
    · rw [if_neg hc, lookupRec_append, if_neg hw]
      rcases h : lookupRec st.2 w with _ | v
      · simp [lookupRec, hw]
      · rfl

theorem foldl_processToken_lookup :
    ∀ (l : List Token) (st : List Token × List WordRecord) (w : String),
      lookupRec (l.foldl processToken st).2 w =
        match lookupRec st.2 w with
        | some v => some (v.1, v.2 + (l.filter fun t => decide (t.1 = w)).length)
        | none =>
            (l.find? fun t => decide (t.1 = w)).map
              fun t => (t.2, (l.filter fun t' => decide (t'.1 = w)).length) := by
  intro l
  induction l with
  | nil =>
    intro st w
    rcases h : lookupRec st.2 w with _ | v <;> simp [h]
  | cons t rest ih =>
    intro st w
    rw [List.foldl_cons, ih, lookupRec_processToken]
    by_cases hw : t.1 = w
    · rw [if_pos hw]
      rcases h : lookupRec st.2 w with _ | v
      · simp [List.find?_cons, List.filter_cons, hw, Nat.add_comm]
      · simp [List.filter_cons, hw, Nat.add_comm, Nat.add_assoc, Nat.add_left_comm]
    · rw [if_neg hw]
      rcases h : lookupRec st.2 w with _ | v
      · simp [List.find?_cons, List.filter_cons, hw]
      · simp [List.filter_cons, hw]

/-- C7: full characterization of a lemma's record after ingestion: the
record for `w` exists iff `w` occurs in the stream; its `partOfSpeech` is the
tag of the FIRST occurrence of `w` (`find?`), so no later occurrence with a
different tag ever updates it, and its `occurrenceCount` is the total number
of occurrences of `w` (every sighting increments it). In particular a lemma
first tagged `verb` then `noun` keeps `verb` with count 2. -/
theorem parse_xmls_first_tag_wins (toks : List Token) (w : String) :
    lookupRec (parse_xmls toks).2 w =
      (toks.find? fun t => decide (t.1 = w)).map
        fun t => (t.2, (toks.filter fun t' => decide (t'.1 = w)).length) := by
  unfold parse_xmls
  rw [foldl_processToken_lookup]
  rfl

/-! ### Ranking lemmas -/

theorem words_ranking_from_map_record :
    ∀ (l : List WordRecord) (k : Nat),
      (words_ranking_from k l).map (fun e => (e.1, e.2.2.2.2, e.2.1)) = l := by
  intro l
  induction l with
  | nil => intro k; rfl
  | cons r rest ih => intro k; simp [words_ranking_from, ih]

theorem words_ranking_from_map_rank :
    ∀ (l : List WordRecord) (k : Nat),
      (words_ranking_from k l).map (fun e => e.2.2.1) = List.range' k l.length := by
  intro l
  induction l with
  | nil => intro k; rfl
  | cons r rest ih => intro k; simp [words_ranking_from, ih, List.range']

theorem words_ranking_from_map_count :
    ∀ (l : List WordRecord) (k : Nat),
      (words_ranking_from k l).map (fun e => e.2.1) = l.map fun r => r.2.2 := by
  intro l
  induction l with
  | nil => intro k; rfl
  | cons r rest ih => intro k; simp [words_ranking_from, ih]

theorem words_ranking_from_zipf :
    ∀ (l : List WordRecord) (k : Nat),
      ∀ e ∈ words_ranking_from k l, e.2.2.2.1 = e.2.1 * e.2.2.1 := by
  intro l
  induction l with
  | nil => intro k e he; simp [words_ranking_from] at he
  | cons r rest ih =>
    intro k e he
    rcases List.mem_cons.mp he with rfl | hmem
    · rfl
    · exact ih (k + 1) e hmem

theorem filter_orderedInsert_pos (c : Nat) (a : WordRecord) (ha : a.2.2 = c) :
    ∀ l : List WordRecord,
      (List.orderedInsert countGe a l).filter (fun r => decide (r.2.2 = c)) =
        a :: l.filter fun r => decide (r.2.2 = c) := by
  intro l
  induction l with
  | nil => simp [List.orderedInsert, ha]
  | cons b rest ih =>
    by_cases hr : countGe a b
    · simp only [List.orderedInsert, if_pos hr]
      simp [List.filter_cons, ha]
    · simp only [List.orderedInsert, if_neg hr]
      have hb : ¬ (b.2.2 = c) := by
        simp only [countGe] at hr
        omega
      simp [List.filter_cons, hb, ih]

theorem filter_orderedInsert_neg (c : Nat) (a : WordRecord) (ha : ¬ a.2.2 = c) :
    ∀ l : List WordRecord,
      (List.orderedInsert countGe a l).filter (fun r => decide (r.2.2 = c)) =
        l.filter fun r => decide (r.2.2 = c) := by
  intro l
  induction l with
  | nil => simp [List.orderedInsert, ha]
  | cons b rest ih =>
    by_cases hr : countGe a b
    · simp only [List.orderedInsert, if_pos hr]
      simp [List.filter_cons, ha]
    · simp only [List.orderedInsert, if_neg hr]
      simp [List.filter_cons, ih]

theorem sorted_by_count_stable (found_words : List WordRecord) (c : Nat) :
    (sorted_by_count found_words).filter (fun r => decide (r.2.2 = c)) =
      found_words.filter fun r => decide (r.2.2 = c) := by
  unfold sorted_by_count
  induction found_words with
  | nil => rfl
  | cons a rest ih =>
    show (List.orderedInsert countGe a (List.insertionSort countGe rest)).filter _ = _
    by_cases ha : a.2.2 = c
    · rw [filter_orderedInsert_pos c a ha, ih]
      simp [List.filter_cons, ha]
    · rw [filter_orderedInsert_neg c a ha, ih]
      simp [List.filter_cons, ha]

/-- C5: `words_ranking` over the stably-sorted record table is (i) a
permutation of the record table (projecting each entry back to its record),
(ii) sorted by non-increasing occurrence count, (iii) carries rank values
that are exactly `1..N` in order (no gaps, no repeats), (iv) satisfies the
exact integer equality `zipfProduct = occurrenceCount * rank` on every
entry, and (v) the sort is stable: for every count value, the records with
that count appear in their original insertion (first-seen) order. -/
theorem words_ranking_correct (found_words : List WordRecord) :
    ((words_ranking (sorted_by_count found_words)).map fun e => (e.1, e.2.2.2.2, e.2.1)).Perm
        found_words
    ∧ ((words_ranking (sorted_by_count found_words)).map fun e => e.2.1).Pairwise
        (fun a b => b ≤ a)
    ∧ (words_ranking (sorted_by_count found_words)).map (fun e => e.2.2.1) =
        List.range' 1 found_words.length
    ∧ (∀ e ∈ words_ranking (sorted_by_count found_words), e.2.2.2.1 = e.2.1 * e.2.2.1)
    ∧ ∀ c : Nat, (sorted_by_count found_words).filter (fun r => decide (r.2.2 = c)) =
        found_words.filter fun r => decide (r.2.2 = c) := by
  refine ⟨?_, ?_, ?_, ?_, ?_⟩
  · rw [words_ranking, words_ranking_from_map_record]
    exact List.perm_insertionSort countGe found_words
  · rw [words_ranking, words_ranking_from_map_count]
    have hs : (List.insertionSort countGe found_words).Pairwise countGe :=
      List.sorted_insertionSort countGe found_words
    exact hs.map _ fun a b h => h
  · rw [words_ranking, words_ranking_from_map_rank]
    simp [sorted_by_count]
  · exact words_ranking_from_zipf _ 1
  · exact fun c => sorted_by_count_stable found_words c

/-- C2 counterexample: two failures of the optional translation lookup that
are NOT recovered locally: a raising `requests.get` (network error) and a
200-response whose body does not support the `data["other"][0]["definitions"]`
access (malformed response) both escape `translate_wiki` as uncaught
exceptions — they are not mapped to an absent (`None`) translation, and
nothing in the function or its callers catches them, so they abort the run. -/
theorem translate_wiki_failure_escapes :
    translate_wiki HttpResult.exn = Except.error PyError.requestFailure
    ∧ translate_wiki (HttpResult.resp 200 WikiResponse.invalid) =
        Except.error PyError.keyError :=
  ⟨rfl, rfl⟩

/-- C2 amended: only a non-200 response (e.g. not-found) is recovered
locally and mapped to an absent (`None`) translation; transport-level
exceptions and malformed 200-response bodies propagate out of
`translate_wiki` uncaught. -/
theorem translate_wiki_non200_none (status : Nat) (body : WikiResponse)
    (h : status ≠ 200) :
    translate_wiki (HttpResult.resp status body) = Except.ok none := by
  simp [translate_wiki, h]

/-- Witness for the amended C2 at the concrete not-found status 404. -/
theorem translate_wiki_non200_none_witness :
    (404 : Nat) ≠ 200 ∧
      translate_wiki (HttpResult.resp 404 WikiResponse.invalid) = Except.ok none :=
  ⟨by decide, translate_wiki_non200_none 404 WikiResponse.invalid (by decide)⟩

/-- Concrete two-token corpus for the C9 counterexample. -/
def exC9 : List Token := [("a", some "noun"), ("b", some "verb")]

/-- C9 counterexample: on a concrete non-empty corpus the sections are
emitted in the order token count, Zipf ranking, centrality ranking, coverage
statement, nouns listing — the coverage statement is NOT last: the nouns-only
sub-listing is written to the sink after it, refuting the claimed order. -/
theorem report_order_example :
    report_sections exC9 =
      [ReportSection.tokenCount, ReportSection.zipfRanking,
        ReportSection.centralityRanking, ReportSection.coverage,
        ReportSection.nounsRanking]
    ∧ (report_sections exC9).getLast? = some ReportSection.nounsRanking := by
  constructor <;> rfl

/-- C9 amended: on every run in which the coverage loop reports a result,
the report sections are emitted in exactly this fixed order: total token
count, top-N frequency/Zipf ranking, top-N centrality ranking, the
core-vocabulary coverage statement, and the nouns-only top-M sub-listing
last. -/
theorem report_sections_order (toks : List Token) (r : Nat × Nat)
    (hc : coverage_result toks = some r) :
    report_sections toks =
      [ReportSection.tokenCount, ReportSection.zipfRanking,
        ReportSection.centralityRanking, ReportSection.coverage,
        ReportSection.nounsRanking] := by
  unfold report_sections
  rw [hc]
  rfl

/-- Concrete two-token corpus for the C9 witness. -/
def exC9w : List Token := [("x", some "noun"), ("y", some "verb")]

/-- Witness for the amended C9 at a concrete corpus whose coverage loop
reports `(2, 2)`. -/
theorem report_sections_order_witness :
    coverage_result exC9w = some (2, 2) ∧
      report_sections exC9w =
        [ReportSection.tokenCount, ReportSection.zipfRanking,
          ReportSection.centralityRanking, ReportSection.coverage,
          ReportSection.nounsRanking] :=
  ⟨by decide, report_sections_order exC9w (2, 2) (by decide)⟩

/-- C8 counterexample: on the empty corpus the coverage loop walks zero
nodes and never reaches its `break`, so NO coverage result — in particular
not the claimed `(0, 0, 0, fraction)` record — is produced, and no coverage
section is written to the report. -/
theorem empty_corpus_no_coverage_example :
    coverage_result [] = none
    ∧ report_sections [] =
        [ReportSection.tokenCount, ReportSection.zipfRanking,
          ReportSection.centralityRanking, ReportSection.nounsRanking] :=
  ⟨rfl, rfl⟩

/-- C8 amended: degenerate inputs do not crash: the empty corpus yields an
empty ranking and an empty graph (no nodes, no edges) and NO coverage
statement (the coverage loop reports nothing, rather than a
`(0, 0, 0, fraction)` record); a cutoff `K` at least the number of distinct
lemmas is clamped: the graph is built over all lemmas. -/
theorem degenerate_inputs_safe (k : Nat) (sw : List WordRecord) (tw : List Token)
    (hk : sw.length ≤ k) :
    words_ranking (sorted_by_count (parse_xmls []).2) = []
    ∧ (create_word_graph (sorted_by_count (parse_xmls []).2) k (parse_xmls []).1).nodes = []
    ∧ (create_word_graph (sorted_by_count (parse_xmls []).2) k (parse_xmls []).1).edges = []
    ∧ coverage_result [] = none
    ∧ (create_word_graph sw k tw).nodes = sw.map fun r => (r.1, r.2.1) := by
  refine ⟨rfl, by simp [create_word_graph, addPairs]; exact Or.inr rfl, rfl, rfl, ?_⟩
  show (addPairs { nodes := (sw.take k).map fun r => (r.1, r.2.1), edges := [] } tw).nodes = _
  rw [addPairs_nodes, List.take_of_length_le hk]

/-- Vocabulary for the C8 witness. -/
def exC8w_sorted : List WordRecord := [("x", some "n", 2), ("y", none, 1)]

/-- Token sequence for the C8 witness. -/
def exC8w_text : List Token := [("x", some "n"), ("y", none), ("x", some "n")]

/-- Witness for the amended C8: a cutoff of 5 over a 2-lemma vocabulary is
clamped, building the graph over both lemmas. -/
theorem degenerate_inputs_safe_witness :
    exC8w_sorted.length ≤ 5 ∧
      (create_word_graph exC8w_sorted 5 exC8w_text).nodes =
        exC8w_sorted.map fun r => (r.1, r.2.1) :=
  ⟨by decide, (degenerate_inputs_safe 5 exC8w_sorted exC8w_text (by decide)).2.2.2.2⟩

/-! ### Keys of the record table -/

/-- The key list of the `found_words` dict (Python dict keys are unique). -/
def keysOf (l : List WordRecord) : List String := l.map fun r => r.1

theorem containsRec_iff_mem_keys (e : String) :
    ∀ l : List WordRecord, containsRec l e = true ↔ e ∈ keysOf l := by
  intro l
  induction l with
  | nil => simp [containsRec, lookupRec, keysOf]
  | cons r rest ih =>
    by_cases hr : r.1 = e
    · simp [containsRec, lookupRec, hr, keysOf]
    · have hne : ¬ e = r.1 := fun h => hr h.symm
      simp only [containsRec, lookupRec, if_neg hr, keysOf, List.map_cons, List.mem_cons]
      rw [← keysOf, ← containsRec]
      simp [ih, hne]

theorem incRec_keys (e : String) : ∀ l : List WordRecord, keysOf (incRec l e) = keysOf l := by
  intro l
  induction l with
  | nil => rfl
  | cons r rest ih =>
    by_cases hr : r.1 = e
    · rw [incRec, if_pos hr]; rfl
    · rw [incRec, if_neg hr]
      simp only [keysOf, List.map_cons] at ih ⊢
      rw [ih]

theorem keysOf_append (l1 l2 : List WordRecord) :
    keysOf (l1 ++ l2) = keysOf l1 ++ keysOf l2 := by
  simp [keysOf]

theorem foldl_keys_nodup :
    ∀ (l : List Token) (st : List Token × List WordRecord),
      (keysOf st.2).Nodup → (keysOf (l.foldl processToken st).2).Nodup := by
  intro l
  induction l with
  | nil => intro st h; exact h
  | cons t rest ih =>
    intro st h
    rw [List.foldl_cons]
    apply ih
    show (keysOf (if containsRec st.2 t.1 then incRec st.2 t.1
      else st.2 ++ [(t.1, t.2, 1)])).Nodup
    by_cases hc : containsRec st.2 t.1
    · rw [if_pos hc, incRec_keys]
      exact h
    · rw [if_neg hc, keysOf_append]
      have hnm : t.1 ∉ keysOf st.2 :=
        fun hm => hc ((containsRec_iff_mem_keys t.1 st.2).mpr hm)
      simp [List.nodup_append, keysOf]
      exact ⟨h, fun x x1 hmem =>
        hnm (List.mem_map_of_mem (fun r : WordRecord => r.1) hmem)⟩

theorem parse_xmls_keys_nodup (toks : List Token) : (keysOf (parse_xmls toks).2).Nodup :=
  foldl_keys_nodup toks ([], []) (by simp [keysOf])

theorem lookupRec_of_mem :
    ∀ l : List WordRecord, (keysOf l).Nodup → ∀ r ∈ l, lookupRec l r.1 = some r.2 := by
  intro l
  induction l with
  | nil => intro _ r hr; simp at hr
  | cons r0 rest ih =>
    intro hnd r hr
    simp only [keysOf, List.map_cons, List.nodup_cons] at hnd
    rcases List.mem_cons.mp hr with rfl | hmem
    · rw [lookupRec, if_pos rfl]
    · by_cases h0 : r0.1 = r.1
      · exact absurd (h0 ▸ List.mem_map_of_mem (fun r : WordRecord => r.1) hmem) hnd.1
      · rw [lookupRec, if_neg h0]
        exact ih hnd.2 r hmem

theorem chain'_of_forall {α : Type} {R : α → α → Prop} (h : ∀ a b, R a b) :
    ∀ l : List α, l.Chain' R
  | [] => List.chain'_nil
  | [a] => List.chain'_singleton a
  | a :: b :: l => List.chain'_cons.mpr ⟨h a b, chain'_of_forall h (b :: l)⟩

/-- C10: a token participates in the adjacency scan under its full
`(lemma, POS)` pair identity as recorded at that occurrence. An occurrence
of a lemma `w` whose tag `tagAlt` differs from the first-observed tag stored in
`found_words` matches no graph node (nodes carry first-seen tags only), so
it (i) is not a node, (ii) is incident to no edge weight at all, and
(iii) any scan step in which it appears as either member of the consecutive
pair leaves the graph unchanged. -/
theorem mismatched_tag_contributes_nothing (toks : List Token) (k : Nat)
    (w : String) (tagFirst tagAlt : Option String) (c : Nat)
    (hlook : lookupRec (parse_xmls toks).2 w = some (tagFirst, c))
    (hne : tagAlt ≠ tagFirst) :
    ((w, tagAlt) ∉ (create_word_graph (sorted_by_count (parse_xmls toks).2) k
        (parse_xmls toks).1).nodes)
    ∧ (∀ v : Token,
        (create_word_graph (sorted_by_count (parse_xmls toks).2) k
          (parse_xmls toks).1).edgeWeight (w, tagAlt) v = 0)
    ∧ ∀ t2 : Token,
        stepEdge (create_word_graph (sorted_by_count (parse_xmls toks).2) k
          (parse_xmls toks).1) (w, tagAlt) t2 =
          create_word_graph (sorted_by_count (parse_xmls toks).2) k (parse_xmls toks).1
        ∧ stepEdge (create_word_graph (sorted_by_count (parse_xmls toks).2) k
            (parse_xmls toks).1) t2 (w, tagAlt) =
          create_word_graph (sorted_by_count (parse_xmls toks).2) k (parse_xmls toks).1 := by
  have hnd := parse_xmls_keys_nodup toks
  have hnodes : (create_word_graph (sorted_by_count (parse_xmls toks).2) k
      (parse_xmls toks).1).nodes =
      ((sorted_by_count (parse_xmls toks).2).take k).map fun r => (r.1, r.2.1) :=
    addPairs_nodes _ _
  have hnotmem : (w, tagAlt) ∉ (create_word_graph (sorted_by_count (parse_xmls toks).2) k
      (parse_xmls toks).1).nodes := by
    rw [hnodes]
    intro hmem
    obtain ⟨r, hr, hreq⟩ := List.mem_map.mp hmem
    have hrfw : r ∈ (parse_xmls toks).2 := by
      have := List.mem_of_mem_take hr
      rw [sorted_by_count] at this
      exact (List.mem_insertionSort countGe).mp this
    have hl := lookupRec_of_mem (parse_xmls toks).2 hnd r hrfw
    have hw : r.1 = w := congrArg Prod.fst hreq
    have hp : r.2.1 = tagAlt := congrArg Prod.snd hreq
    rw [hw, hlook] at hl
    have : r.2.1 = tagFirst := by
      have := congrArg (fun o => Option.map Prod.fst o) hl.symm
      simpa using this
    exact hne (hp ▸ this)
  have hend : ∀ e ∈ (create_word_graph (sorted_by_count (parse_xmls toks).2) k
      (parse_xmls toks).1).edges,
      e.1 ∈ ((sorted_by_count (parse_xmls toks).2).take k).map
        (fun r : WordRecord => (r.1, r.2.1))
      ∧ e.2.1 ∈ ((sorted_by_count (parse_xmls toks).2).take k).map
        fun r : WordRecord => (r.1, r.2.1) :=
    addPairs_edges_pred (fun a b =>
        a ∈ ((sorted_by_count (parse_xmls toks).2).take k).map
          (fun r : WordRecord => (r.1, r.2.1))
        ∧ b ∈ ((sorted_by_count (parse_xmls toks).2).take k).map
          fun r : WordRecord => (r.1, r.2.1))
      (((sorted_by_count (parse_xmls toks).2).take k).map
        fun r : WordRecord => (r.1, r.2.1))
      (parse_xmls toks).1
      { nodes := ((sorted_by_count (parse_xmls toks).2).take k).map
          fun r : WordRecord => (r.1, r.2.1),
        edges := [] }
      rfl (fun e he => absurd he (List.not_mem_nil e))
      (chain'_of_forall (fun a b h1 h2 => ⟨h1, h2⟩) (parse_xmls toks).1)
  refine ⟨hnotmem, ?_, ?_⟩
  · intro v
    apply edgeWeightList_zero
    intro e he hs
    have hmem := hend e he
    rcases hs with ⟨h1, _⟩ | ⟨_, h2⟩
    · exact hnotmem (by rw [hnodes]; exact h1 ▸ hmem.1)
    · exact hnotmem (by rw [hnodes]; exact h2 ▸ hmem.2)
  · intro t2
    constructor
    · exact stepEdge_eq_of_not_node _ _ _ fun hcon => hnotmem hcon.1
    · exact stepEdge_eq_of_not_node _ _ _ fun hcon => hnotmem hcon.2

/-- Concrete corpus for the C10 witness: `run` first tagged `verb`, later
re-tagged `noun`. -/
def exC10 : List Token :=
  [("run", some "verb"), ("run", some "noun"), ("go", some "adv")]

/-- Witness for C10 at a concrete corpus: the record of `run` stores the
first-seen tag `verb`, so the occurrence `(run, noun)` is not a node of the
`K = 2` graph and touches no edge weight. -/
theorem mismatched_tag_contributes_nothing_witness :
    lookupRec (parse_xmls exC10).2 "run" = some (some "verb", 2) ∧
      (some "noun" : Option String) ≠ some "verb" ∧
      ((("run", some "noun") : Token) ∉
        (create_word_graph (sorted_by_count (parse_xmls exC10).2) 2
          (parse_xmls exC10).1).nodes) ∧
      ∀ v : Token,
        (create_word_graph (sorted_by_count (parse_xmls exC10).2) 2
          (parse_xmls exC10).1).edgeWeight ("run", some "noun") v = 0 :=
  ⟨by decide, by decide,
    (mismatched_tag_contributes_nothing exC10 2 "run" (some "verb") (some "noun") 2
      (by decide) (by decide)).1,
    (mismatched_tag_contributes_nothing exC10 2 "run" (some "verb") (some "noun") 2
      (by decide) (by decide)).2.1⟩

/-! ### Coverage loop lemmas -/

theorem cumCount_succ_cons (fw : List WordRecord) (e : Token × Nat)
    (rest : List (Token × Nat)) (j : Nat) :
    cumCount fw (e :: rest) (j + 1) = cntOf fw e.1.1 + cumCount fw rest j := by
  simp [cumCount, List.take_succ_cons]

theorem cumCount_one (fw : List WordRecord) (e : Token × Nat) (rest : List (Token × Nat)) :
    cumCount fw (e :: rest) 1 = cntOf fw e.1.1 := by
  rw [cumCount_succ_cons]
  simp [cumCount]

theorem cumCount_full (fw : List WordRecord) (l : List (Token × Nat)) :
    cumCount fw l l.length = (l.map fun e => cntOf fw e.1.1).sum := by
  rw [cumCount, List.take_length]

theorem coverage_loop_first_hit (found_words : List WordRecord) (total : Nat) :
    ∀ (l : List (Token × Nat)) (i cum : Nat), l ≠ [] →
      9 * total ≤ 10 * (cum + cumCount found_words l l.length) →
      ∃ j, 1 ≤ j ∧ j ≤ l.length ∧
        coverage_loop found_words total l i cum =
          some (i + j, cum + cumCount found_words l j) ∧
        9 * total ≤ 10 * (cum + cumCount found_words l j) ∧
        ∀ j', 1 ≤ j' → j' < j →
          10 * (cum + cumCount found_words l j') < 9 * total := by
  intro l
  induction l with
  | nil => intro i cum h; exact absurd rfl h
  | cons e rest ih =>
    intro i cum _ hfull
    by_cases hbar : 9 * total ≤ 10 * (cum + cntOf found_words e.1.1)
    · refine ⟨1, Nat.le_refl 1, by simp, ?_, ?_, ?_⟩
      · show (if 9 * total ≤ 10 * (cum + cntOf found_words e.1.1) then
            some (i + 1, cum + cntOf found_words e.1.1)
          else coverage_loop found_words total rest (i + 1)
            (cum + cntOf found_words e.1.1)) = _
        rw [if_pos hbar, cumCount_one]
      · rw [cumCount_one]
        exact hbar
      · intro j' h1 h2
        omega
    · have hsplit : cumCount found_words (e :: rest) (e :: rest).length
          = cntOf found_words e.1.1 + cumCount found_words rest rest.length := by
        rw [List.length_cons, cumCount_succ_cons]
      have hrest_ne : rest ≠ [] := by
        intro h0
        subst h0
        rw [hsplit] at hfull
        simp [cumCount] at hfull
        omega
      have hfull2 : 9 * total ≤
          10 * ((cum + cntOf found_words e.1.1) + cumCount found_words rest rest.length) := by
        rw [hsplit] at hfull
        omega
      obtain ⟨jr, hjr1, hjrle, hloop, hbound, hmin⟩ :=
        ih (i + 1) (cum + cntOf found_words e.1.1) hrest_ne hfull2
      refine ⟨jr + 1, by omega, by simp; omega, ?_, ?_, ?_⟩
      · show (if 9 * total ≤ 10 * (cum + cntOf found_words e.1.1) then
            some (i + 1, cum + cntOf found_words e.1.1)
          else coverage_loop found_words total rest (i + 1)
            (cum + cntOf found_words e.1.1)) = _
        rw [if_neg hbar, hloop, cumCount_succ_cons]
        have hi : i + 1 + jr = i + (jr + 1) := by omega
        have hc : cum + cntOf found_words e.1.1 + cumCount found_words rest jr
            = cum + (cntOf found_words e.1.1 + cumCount found_words rest jr) := by omega
        rw [hi, hc]
      · rw [cumCount_succ_cons]
        omega
      · intro j' h1 hlt
        rcases j' with _ | j''
        · omega
        · rw [cumCount_succ_cons]
          rcases Nat.eq_zero_or_pos j'' with rfl | hpos
          · simp [cumCount]
            omega
          · have := hmin j'' hpos (by omega)
            omega

theorem sumCounts_eq_map_sum (l : List WordRecord) :
    sumCounts l = (l.map fun r => r.2.2).sum := by
  induction l with
  | nil => rfl
  | cons r rest ih => simp [sumCounts, ih]

theorem walk_order_cnt_sum (toks : List Token)
    (hnd : (keysOf (parse_xmls toks).2).Nodup) :
    ((walk_order toks).map fun e => cntOf (parse_xmls toks).2 e.1.1).sum =
      sumCounts (parse_xmls toks).2 := by
  have h1 : (walk_order toks).Perm
      (degreeList (create_word_graph (sorted_by_count (parse_xmls toks).2)
        (sorted_by_count (parse_xmls toks).2).length (parse_xmls toks).1)) :=
    List.perm_insertionSort degGe _
  rw [List.Perm.sum_eq (h1.map fun e => cntOf (parse_xmls toks).2 e.1.1)]
  rw [degreeList, List.map_map]
  have h2 : (create_word_graph (sorted_by_count (parse_xmls toks).2)
        (sorted_by_count (parse_xmls toks).2).length (parse_xmls toks).1).nodes
      = ((sorted_by_count (parse_xmls toks).2).take
          (sorted_by_count (parse_xmls toks).2).length).map
        fun r : WordRecord => (r.1, r.2.1) :=
    addPairs_nodes _ _
  rw [h2, List.take_length, List.map_map]
  have h3 : (sorted_by_count (parse_xmls toks).2).Perm (parse_xmls toks).2 :=
    List.perm_insertionSort countGe _
  rw [List.Perm.sum_eq (h3.map _)]
  have h4 : ((parse_xmls toks).2).map
        (((fun e : Token × Nat => cntOf (parse_xmls toks).2 e.1.1) ∘
          fun v : Token => (v,
            (create_word_graph (sorted_by_count (parse_xmls toks).2)
              (sorted_by_count (parse_xmls toks).2).length
              (parse_xmls toks).1).weightedDegree v)) ∘
            fun r : WordRecord => (r.1, r.2.1))
      = ((parse_xmls toks).2).map fun r : WordRecord => r.2.2 := by
    refine List.map_congr_left fun r hr => ?_
    show cntOf (parse_xmls toks).2 r.1 = r.2.2
    unfold cntOf
    rw [lookupRec_of_mem (parse_xmls toks).2 hnd r hr]
  rw [h4]
  exact (sumCounts_eq_map_sum (parse_xmls toks).2).symm

/-- C4: for every non-empty corpus, the coverage computation walks the
full-vocabulary graph's nodes in descending weighted-degree order
(`walk_order`), accumulating each lemma's `occurrenceCount` looked up in the
record table (not its degree value), and reports the first prefix length at
which the cumulative count reaches `0.9 * totalTokenCount` (the barrier
`total_words * 0.9` embedded exactly as `9 * total ≤ 10 * cum`): a result
`(j, cumulativeCount)` is always reported, the reported cumulative count is
the prefix sum at `j`, it meets the 0.9 bound, and no strictly shorter
prefix under the same ordering reaches that bound. -/
theorem coverage_first_prefix (toks : List Token)
    (hne : (parse_xmls toks).1 ≠ []) :
    ∃ j, 1 ≤ j ∧ j ≤ (walk_order toks).length ∧
      coverage_result toks =
        some (j, cumCount (parse_xmls toks).2 (walk_order toks) j) ∧
      9 * (parse_xmls toks).1.length ≤
        10 * cumCount (parse_xmls toks).2 (walk_order toks) j ∧
      ∀ j' < j, 10 * cumCount (parse_xmls toks).2 (walk_order toks) j' <
        9 * (parse_xmls toks).1.length := by
  have htot : 0 < (parse_xmls toks).1.length := List.length_pos.mpr hne
  have hsc : sumCounts (parse_xmls toks).2 = (parse_xmls toks).1.length := by
    rcases foldl_processToken_sum_len toks ([], []) with ⟨h1, h2⟩
    show sumCounts (toks.foldl processToken ([], [])).2 =
      (toks.foldl processToken ([], [])).1.length
    rw [h1, h2]
    rfl
  have hsum : ((walk_order toks).map fun e => cntOf (parse_xmls toks).2 e.1.1).sum
      = (parse_xmls toks).1.length := by
    rw [walk_order_cnt_sum toks (parse_xmls_keys_nodup toks), hsc]
  have hwne : walk_order toks ≠ [] := by
    intro h0
    rw [h0] at hsum
    simp at hsum
    omega
  have hfull : 9 * (parse_xmls toks).1.length ≤
      10 * (0 + cumCount (parse_xmls toks).2 (walk_order toks)
        (walk_order toks).length) := by
    rw [cumCount_full, hsum]
    omega
  obtain ⟨j, hj1, hjle, hloop, hbound, hmin⟩ :=
    coverage_loop_first_hit (parse_xmls toks).2 (parse_xmls toks).1.length
      (walk_order toks) 0 0 hwne hfull
  refine ⟨j, hj1, hjle, ?_, ?_, ?_⟩
  · show coverage_loop (parse_xmls toks).2 (parse_xmls toks).1.length
      (walk_order toks) 0 0 = _
    rw [hloop]
    simp
  · simpa using hbound
  · intro j' hj'
    rcases Nat.eq_zero_or_pos j' with rfl | hpos
    · show 10 * cumCount (parse_xmls toks).2 (walk_order toks) 0 <
        9 * (parse_xmls toks).1.length
      simp [cumCount]
      omega
    · simpa using hmin j' hpos hj'

/-- Concrete two-token corpus for the C4 witness. -/
def exC4 : List Token := [("w1", some "a"), ("w2", some "b")]

/-- Witness for C4 at a concrete non-empty corpus. -/
theorem coverage_first_prefix_witness :
    (parse_xmls exC4).1 ≠ [] ∧
      ∃ j, 1 ≤ j ∧ j ≤ (walk_order exC4).length ∧
        coverage_result exC4 =
          some (j, cumCount (parse_xmls exC4).2 (walk_order exC4) j) ∧
        9 * (parse_xmls exC4).1.length ≤
          10 * cumCount (parse_xmls exC4).2 (walk_order exC4) j ∧
        ∀ j' < j, 10 * cumCount (parse_xmls exC4).2 (walk_order exC4) j' <
          9 * (parse_xmls exC4).1.length :=
  ⟨by decide, coverage_first_prefix exC4 (by decide)⟩
